import Mathlib

/-!
# Shallow embedding of `src/search/greedy/huffman.cc`

The source is a Huffman-coding program over `char` symbols.  We embed its
data model and operations:

* `struct Node` (weight `int w`, symbol `char c`, children `left`/`right`)
  becomes the inductive type `Tree`: the program only ever builds nodes
  through `leaf` (both children `NULL`) and `merge` (both children set), so
  every reachable `Node` is either a leaf or has exactly two children.
  The C `int` weight is modelled as `Int` (no claim depends on overflow).

* `Node*` values are compared with the raw pointer `<` in `huffman` and
  `swap` (the operands have type `Node*`, so `Node::operator<`, which
  compares weights, is never invoked).  We model a pointer as an allocation
  number: `NodeRef` pairs the tree with the address `addr` handed out by a
  bump allocator — `new` returns strictly increasing addresses, in the
  order the program allocates (`nodes` allocates the leaves in map order,
  each `merge` allocates a fresh node afterwards).  Pointer `<` is then
  `addr <` comparison.

* `vector<Node*> ts` inside `huffman` is modelled REVERSED as a
  `List NodeRef`: the head of the list is `ts[n-1]` (the vector's back).
  The inner `for (int i = n - 3; i >= 0; --i)` loop visits indices
  descending, i.e. the reversed prefix left to right, and each visited
  cell is written at most once and never re-read, so the loop is the
  left fold `hscanR`.

* `map<char, string>` (`CodeTab`) is modelled as `Char → Option (List Char)`;
  `map<char,int>` (`freq`'s histogram) as a key-sorted association list.
  `string` bit-strings are `List Char`.

* `decode`'s outer `while (*bits)` loop has no structural termination
  measure (a single-leaf root consumes no bit), so it is embedded with
  fuel, `decodeF`; the result type `DecodeResult` separates a normal
  return (`ok`), running past the end of the input C string at an internal
  node (`oob` — in the source this reads the `'\0'` terminator and then
  past the buffer: undefined behaviour), and exhausted fuel (`hang`,
  sound for nontermination: if `decodeF fuel … = hang` for every `fuel`,
  the loop never exits).
-/

namespace Huffman

/-- Huffman tree: `leaf c w` is a `Node` with `left = right = NULL`,
`node w l r` an internal node produced by `merge`. -/
inductive Tree where
  | leaf (c : Char) (w : Int)
  | node (w : Int) (l r : Tree)
deriving DecidableEq, Repr

namespace Tree

/-- The `w` field of a node. -/
def w : Tree → Int
  | .leaf _ w => w
  | .node w _ _ => w

/-- `isleaf`: true iff both children are absent. -/
def isleaf : Tree → Bool
  | .leaf _ _ => true
  | .node _ _ _ => false

/-- Symbols at the leaves, left to right. -/
def chars : Tree → List Char
  | .leaf c _ => [c]
  | .node _ l r => chars l ++ chars r

/-- Weights of all nodes of the tree (preorder). -/
def weights : Tree → List Int
  | .leaf _ w => [w]
  | .node w l r => w :: (weights l ++ weights r)

end Tree

/-- A `Node*`: the tree it points at together with its allocation
address (allocation order of `new`). -/
structure NodeRef where
  addr : Nat
  tree : Tree
deriving DecidableEq, Repr

/-- Raw pointer comparison `a < b` on two `Node*` values, under the
bump-allocator model: comparison of allocation order. -/
def ptrLt (a b : NodeRef) : Bool := a.addr < b.addr

/-- `merge(a, b)`: fresh node with `w = a->w + b->w`, `left = a`,
`right = b`, allocated at address `next`. -/
def mergeRef (next : Nat) (a b : NodeRef) : NodeRef :=
  ⟨next, Tree.node (a.tree.w + b.tree.w) a.tree b.tree⟩

/-- One body of the scan loop of `huffman`, acting on
`(ts[i], ts[n-2], ts[n-1])`:
`if (ts[i] < min(ts[n-1], ts[n-1])) swap(ts, i, n-1, n-2);`.
`std::min(ts[n-1], ts[n-1])` is `ts[n-1]` itself, and
`swap(ts, i, j, k)` is `swap(ts[i], ts[ts[j] < ts[k] ? k : j])`,
all comparisons on the raw `Node*` values. -/
def hstep1 (x y z : NodeRef) : NodeRef × NodeRef × NodeRef :=
  if ptrLt x z then
    if ptrLt z y then (y, x, z) else (z, y, x)
  else (x, y, z)

/-- The `for (int i = n - 3; i >= 0; --i)` scan of `huffman`, on the
reversed prefix `rfront = [ts[n-3], …, ts[0]]` with `y = ts[n-2]`,
`z = ts[n-1]`.  Returns the updated reversed prefix and the updated
last two cells. -/
def hscanR : List NodeRef → NodeRef → NodeRef → List NodeRef × NodeRef × NodeRef
  | [], y, z => ([], y, z)
  | x :: xs, y, z =>
    ((hstep1 x y z).1 :: (hscanR xs (hstep1 x y z).2.1 (hstep1 x y z).2.2).1,
     (hscanR xs (hstep1 x y z).2.1 (hstep1 x y z).2.2).2)

/-- One iteration of the `while ((n = ts.size()) > 1)` loop of `huffman`,
on the reversed vector paired with the allocator counter: scan, then
`ts[n-2] = merge(ts[n-1], ts[n-2]); ts.pop_back();`.  For a vector of
size `≤ 1` the loop guard fails and the state is unchanged. -/
def hstepF : List NodeRef × Nat → List NodeRef × Nat
  | (z :: y :: rfront, next) =>
    (mergeRef next (hscanR rfront y z).2.2 (hscanR rfront y z).2.1 ::
       (hscanR rfront y z).1, next + 1)
  | s => s

/-- `huffman(vector<Node*> ts)`: run the loop (the vector's size drops by
one per iteration, so `ts.size() - 1` iterations reach the fixpoint) and
return `ts.front()` — the last element of the reversed representation.
On the empty vector `front()` is undefined behaviour, modelled as
`none`.  `next` is the allocator counter (the next fresh address). -/
def huffman (ts : List NodeRef) (next : Nat) : Option Tree :=
  ((hstepF^[ts.length - 1] (ts.reverse, next)).1.getLast?).map (·.tree)

/-- `codetab(Node *t, string bits, CodeTab &codes)`: record `bits` at each
leaf, descending with `bits + "0"` to the left and `bits + "1"` to the
right; `codes[t->c] = bits` is functional overwrite, and the right
subtree is visited after the left. -/
def codetab : Tree → List Char → (Char → Option (List Char)) → Char → Option (List Char)
  | .leaf c _, bits, codes => fun x => if x = c then some bits else codes x
  | .node _ l r, bits, codes => codetab r (bits ++ ['1']) (codetab l (bits ++ ['0']) codes)

/-- `codetable(Node *t)`: `codetab(t, "", codes)` from the empty map. -/
def codetable (t : Tree) : Char → Option (List Char) :=
  codetab t [] (fun _ => none)

/-- `encode(CodeTab codes, const char *w)`: `bits += codes[*w++]` for each
input character.  `map::operator[]` on an absent key inserts and returns
a default-constructed (empty) string, so an absent symbol contributes no
bits; the insertion happens in `encode`'s by-value copy of the table and
is not otherwise observable. -/
def encode (codes : Char → Option (List Char)) : List Char → List Char
  | [] => []
  | c :: w => ((codes c).getD []) ++ encode codes w

/-- Outcome of running `decode`: a normal return, a read past the end of
the bit string (undefined behaviour in the source), or a non-terminating
run (out of fuel at every fuel). -/
inductive DecodeResult where
  | ok (w : List Char)
  | oob
  | hang
deriving DecidableEq, Repr

/-- The inner loop of `decode`:
`while (!isleaf(t)) t = '0' == *bits++ ? t->left : t->right;` —
descend left exactly on `'0'`, right on any other character, until a
leaf; return its symbol and the unread rest.  When the bits run out at
an internal node the source reads the `'\0'` terminator (descending
right) and then walks memory past the buffer: modelled as `none`. -/
def decodeSym : Tree → List Char → Option (Char × List Char)
  | .leaf c _, bits => some (c, bits)
  | .node _ _ _, [] => none
  | .node _ l r, b :: bits => decodeSym (if b = '0' then l else r) bits

/-- The outer `while (*bits)` loop of `decode`, with fuel bounding the
number of iterations (one symbol appended per iteration). -/
def decodeF : Nat → Tree → List Char → DecodeResult
  | _, _, [] => .ok []
  | 0, _, _ :: _ => .hang
  | fuel + 1, root, b :: bits =>
    match decodeSym root (b :: bits) with
    | none => .oob
    | some (c, rest) =>
      match decodeF fuel root rest with
      | .ok w => .ok (c :: w)
      | r => r

/-- `decode(Node *root, const char *bits)` with the canonical fuel
`|bits| + 1`, which suffices whenever the root is an internal node. -/
def decode (root : Tree) (bits : List Char) : DecodeResult :=
  decodeF (bits.length + 1) root bits

/-- Insertion of one occurrence of `c` into the key-sorted histogram:
`++hist[*w++]` on `map<char, int>`. -/
def histUpdate (c : Char) : List (Char × Nat) → List (Char × Nat)
  | [] => [(c, 1)]
  | (d, k) :: rest =>
    if c = d then (d, k + 1) :: rest
    else if c < d then (c, 1) :: (d, k) :: rest
    else (d, k) :: histUpdate c rest

/-- `freq(const char *w)`: occurrence histogram of the text, iterated in
ascending key order (the `map` iteration order used by `nodes`). -/
def freq (w : List Char) : List (Char × Nat) :=
  w.foldl (fun h c => histUpdate c h) []

/-- `nodes(hist)` body: one `leaf(it->first, it->second)` per entry in
iteration order, allocated at consecutive addresses starting at `i`. -/
def nodesGo (i : Nat) : List (Char × Nat) → List NodeRef
  | [] => []
  | (c, k) :: rest => ⟨i, Tree.leaf c (k : Int)⟩ :: nodesGo (i + 1) rest

/-- `nodes(const map<char,int> &hist)`: the forest of leaves, allocated
at addresses `0, 1, …` in map order. -/
def nodes (hist : List (Char × Nat)) : List NodeRef :=
  nodesGo 0 hist

/-- Sum of the root weights of a forest (in the reversed representation
used by `hstepF`; summation is order-independent). -/
def sumW (ts : List NodeRef) : Int :=
  (ts.map (fun nr => nr.tree.w)).sum

/-- Leaf symbols of all trees of a forest. -/
def forestChars (ts : List NodeRef) : List Char :=
  ts.flatMap (fun nr => nr.tree.chars)

/-! ## Lemmas about the construction loop -/

theorem hstep1_perm (x y z : NodeRef) :
    List.Perm [(hstep1 x y z).1, (hstep1 x y z).2.1, (hstep1 x y z).2.2] [x, y, z] := by
  unfold hstep1
  split
  · split
    · exact List.Perm.swap x y [z]
    · exact ((List.Perm.swap y z [x]).trans
        ((List.Perm.swap x z []).cons y)).trans (List.Perm.swap x y [z])
  · exact List.Perm.refl _

theorem hscanR_length (xs : List NodeRef) (y z : NodeRef) :
    (hscanR xs y z).1.length = xs.length := by
  induction xs generalizing y z with
  | nil => rfl
  | cons x xs ih => simp [hscanR, ih]

theorem hscanR_perm (xs : List NodeRef) (y z : NodeRef) :
    List.Perm ((hscanR xs y z).1 ++ [(hscanR xs y z).2.1, (hscanR xs y z).2.2])
      (xs ++ [y, z]) := by
  induction xs generalizing y z with
  | nil => simp [hscanR]
  | cons x xs ih =>
    simp only [hscanR, List.cons_append]
    refine ((ih _ _).cons _).trans ?_
    refine (List.perm_append_comm.cons _).trans ?_
    refine List.Perm.trans ?_ (List.perm_append_comm.cons x)
    exact (hstep1_perm x y z).append_right xs

theorem hstepF_short (s : List NodeRef × Nat) (h : s.1.length ≤ 1) : hstepF s = s := by
  obtain ⟨ts, next⟩ := s
  match ts with
  | [] => rfl
  | [x] => rfl
  | x :: y :: rest => simp at h

theorem hstepF_cons (z y : NodeRef) (rfront : List NodeRef) (next : Nat) :
    hstepF (z :: y :: rfront, next) =
      (mergeRef next (hscanR rfront y z).2.2 (hscanR rfront y z).2.1 ::
        (hscanR rfront y z).1, next + 1) := rfl

theorem iterate_length (k : Nat) : ∀ (ts : List NodeRef) (next : Nat), 1 ≤ ts.length →
    ((hstepF^[k]) (ts, next)).1.length = max (ts.length - k) 1 := by
  induction k with
  | zero => intro ts next h; simp; omega
  | succ k ih =>
    intro ts next h
    rw [Function.iterate_succ_apply]
    match ts with
    | [x] =>
      rw [hstepF_short _ (by simp)]
      rw [ih _ _ (by simp)]
      simp
    | z :: y :: rest =>
      rw [hstepF_cons]
      rw [ih _ _ (by simp)]
      simp only [List.length_cons, hscanR_length]
      omega

theorem sumW_append (xs ys : List NodeRef) : sumW (xs ++ ys) = sumW xs + sumW ys := by
  simp [sumW]

theorem sumW_perm {xs ys : List NodeRef} (h : List.Perm xs ys) : sumW xs = sumW ys := by
  unfold sumW
  exact List.Perm.sum_eq (List.Perm.map (fun nr => nr.tree.w) h)

theorem hstepF_sumW (s : List NodeRef × Nat) : sumW (hstepF s).1 = sumW s.1 := by
  obtain ⟨ts, next⟩ := s
  match ts with
  | [] => rfl
  | [x] => rfl
  | z :: y :: rest =>
    rw [hstepF_cons]
    have hperm := sumW_perm (hscanR_perm rest y z)
    rw [sumW_append, sumW_append] at hperm
    simp only [sumW, List.map_cons, List.map_nil, List.sum_cons, List.sum_nil,
      mergeRef, Tree.w] at hperm ⊢
    omega

theorem iterate_sumW (k : Nat) (s : List NodeRef × Nat) :
    sumW ((hstepF^[k]) s).1 = sumW s.1 := by
  induction k generalizing s with
  | zero => rfl
  | succ k ih => rw [Function.iterate_succ_apply, ih, hstepF_sumW]

theorem forestChars_append (xs ys : List NodeRef) :
    forestChars (xs ++ ys) = forestChars xs ++ forestChars ys := by
  simp [forestChars]

theorem hstepF_chars_mem (c : Char) (s : List NodeRef × Nat) :
    c ∈ forestChars (hstepF s).1 ↔ c ∈ forestChars s.1 := by
  obtain ⟨ts, next⟩ := s
  match ts with
  | [] => exact Iff.rfl
  | [x] => exact Iff.rfl
  | z :: y :: rest =>
    rw [hstepF_cons]
    have hperm : c ∈ forestChars ((hscanR rest y z).1 ++
        [(hscanR rest y z).2.1, (hscanR rest y z).2.2]) ↔
        c ∈ forestChars (rest ++ [y, z]) :=
      ((hscanR_perm rest y z).flatMap_right (fun nr => nr.tree.chars)).mem_iff
    simp only [forestChars, List.flatMap_cons, List.flatMap_append, List.flatMap_nil,
      mergeRef, Tree.chars, List.mem_append, List.append_nil] at *
    tauto

theorem iterate_chars_mem (c : Char) (k : Nat) (s : List NodeRef × Nat) :
    c ∈ forestChars ((hstepF^[k]) s).1 ↔ c ∈ forestChars s.1 := by
  induction k generalizing s with
  | zero => exact Iff.rfl
  | succ k ih =>
    rw [Function.iterate_succ_apply', hstepF_chars_mem]
    exact ih s

/-! ## Shape of the `huffman` result -/

theorem iterate_internal (k : Nat) : ∀ (rts : List NodeRef) (next : Nat),
    rts.length = k + 2 →
    ∃ a w l r, ((hstepF^[k + 1]) (rts, next)).1 = [⟨a, Tree.node w l r⟩] := by
  induction k with
  | zero =>
    intro rts next h
    match rts with
    | [] => simp at h
    | [x] => simp at h
    | z :: y :: rfront =>
      have hnil : rfront = [] := by simpa using h
      subst hnil
      refine ⟨next, z.tree.w + y.tree.w, z.tree, y.tree, ?_⟩
      simp [Function.iterate_one, hstepF_cons, hscanR, mergeRef]
  | succ k ih =>
    intro rts next h
    match rts with
    | [] => simp at h
    | [x] => simp at h
    | z :: y :: rfront =>
      rw [show k + 1 + 1 = (k + 1) + 1 from rfl, Function.iterate_succ_apply, hstepF_cons]
      refine ih _ _ ?_
      simp only [List.length_cons, hscanR_length]
      simp at h
      omega

theorem huffman_nonempty_some (ts : List NodeRef) (next : Nat) (h : ts ≠ []) :
    ∃ t, huffman ts next = some t := by
  have h0 : 0 < ts.length := List.length_pos.mpr h
  have h1 : 1 ≤ ts.reverse.length := by rw [List.length_reverse]; omega
  have hlen := iterate_length (ts.length - 1) ts.reverse next h1
  rw [List.length_reverse] at hlen
  have hone : ((hstepF^[ts.length - 1]) (ts.reverse, next)).1.length = 1 := by
    rw [hlen]; omega
  obtain ⟨nr, hnr⟩ := List.length_eq_one.mp hone
  exact ⟨nr.tree, by unfold huffman; rw [hnr]; rfl⟩

theorem huffman_internal (ts : List NodeRef) (next : Nat) (h : 2 ≤ ts.length) :
    ∃ w l r, huffman ts next = some (Tree.node w l r) ∧
      ∀ c : Char, c ∈ (Tree.node w l r).chars ↔ c ∈ forestChars ts := by
  obtain ⟨a, w, l, r, hfin⟩ := iterate_internal (ts.length - 2) ts.reverse next
    (by rw [List.length_reverse]; omega)
  have hk : ts.length - 1 = (ts.length - 2) + 1 := by omega
  refine ⟨w, l, r, ?_, ?_⟩
  · unfold huffman
    rw [hk, hfin]
    rfl
  · intro c
    have h1 := iterate_chars_mem c ((ts.length - 2) + 1) (ts.reverse, next)
    rw [hfin] at h1
    have h2 : c ∈ forestChars ts.reverse ↔ c ∈ forestChars ts :=
      ((List.reverse_perm ts).flatMap_right (fun nr => nr.tree.chars)).mem_iff
    simpa [forestChars] using h1.trans h2

/-! ## Root-to-leaf paths and the code table -/

/-- `p` is a root-to-leaf path in `t` (`'0'` = left, `'1'` = right) ending
at a leaf that carries symbol `c`. -/
inductive PathTo : Tree → List Char → Char → Prop
  | leaf (c : Char) (w : Int) : PathTo (.leaf c w) [] c
  | left {l : Tree} {p : List Char} {c : Char} (w : Int) (r : Tree) :
      PathTo l p c → PathTo (.node w l r) ('0' :: p) c
  | right {r : Tree} {p : List Char} {c : Char} (w : Int) (l : Tree) :
      PathTo r p c → PathTo (.node w l r) ('1' :: p) c

theorem PathTo_node_ne_nil {w : Int} {l r : Tree} {p : List Char} {c : Char}
    (h : PathTo (Tree.node w l r) p c) : p ≠ [] := by
  cases h <;> simp

theorem codetab_not_mem {c : Char} : ∀ (t : Tree) (bits : List Char)
    (codes : Char → Option (List Char)), c ∉ t.chars →
    codetab t bits codes c = codes c := by
  intro t
  induction t with
  | leaf d w =>
    intro bits codes h
    simp only [Tree.chars, List.mem_singleton] at h
    simp [codetab, h]
  | node w l r ihl ihr =>
    intro bits codes h
    simp only [Tree.chars, List.mem_append] at h
    push_neg at h
    simp only [codetab]
    rw [ihr _ _ h.2, ihl _ _ h.1]

theorem codetab_mem {c : Char} : ∀ (t : Tree) (bits : List Char)
    (codes : Char → Option (List Char)), c ∈ t.chars →
    ∃ p, codetab t bits codes c = some (bits ++ p) ∧ PathTo t p c := by
  intro t
  induction t with
  | leaf d w =>
    intro bits codes h
    simp only [Tree.chars, List.mem_singleton] at h
    subst h
    exact ⟨[], by simp [codetab], PathTo.leaf c w⟩
  | node w l r ihl ihr =>
    intro bits codes h
    by_cases hr : c ∈ r.chars
    · obtain ⟨p, hp, hpath⟩ := ihr (bits ++ ['1']) (codetab l (bits ++ ['0']) codes) hr
      refine ⟨'1' :: p, ?_, PathTo.right w l hpath⟩
      simp only [codetab]
      rw [hp]
      simp
    · have hl : c ∈ l.chars := by
        simp only [Tree.chars, List.mem_append] at h
        tauto
      obtain ⟨p, hp, hpath⟩ := ihl (bits ++ ['0']) codes hl
      refine ⟨'0' :: p, ?_, PathTo.left w r hpath⟩
      simp only [codetab]
      rw [codetab_not_mem r _ _ hr, hp]
      simp

theorem codetable_mem {c : Char} {t : Tree} (h : c ∈ t.chars) :
    ∃ p, codetable t c = some p ∧ PathTo t p c := by
  obtain ⟨p, hp, hpath⟩ := codetab_mem t [] (fun _ => none) h
  exact ⟨p, by simpa [codetable] using hp, hpath⟩

theorem codetable_some {c : Char} {t : Tree} {p : List Char}
    (h : codetable t c = some p) : PathTo t p c := by
  by_cases hc : c ∈ t.chars
  · obtain ⟨q, hq, hpath⟩ := codetable_mem hc
    rw [h] at hq
    cases hq
    exact hpath
  · rw [codetable, codetab_not_mem t [] _ hc] at h
    cases h

theorem PathTo_prefix_eq : ∀ {t : Tree} {p q : List Char} {c d : Char},
    PathTo t p c → PathTo t q d → p <+: q → p = q ∧ c = d := by
  intro t p q c d h1
  induction h1 generalizing q d with
  | leaf c w =>
    intro h2 _
    cases h2
    exact ⟨rfl, rfl⟩
  | left w r h ih =>
    intro h2 hpre
    cases h2 with
    | left w' r' h' =>
      obtain ⟨heq, hpre'⟩ := List.cons_prefix_cons.mp hpre
      obtain ⟨hp, hc⟩ := ih h' hpre'
      exact ⟨by rw [hp], hc⟩
    | right w' l' h' =>
      obtain ⟨heq, _⟩ := List.cons_prefix_cons.mp hpre
      exact absurd heq (by decide)
  | right w l h ih =>
    intro h2 hpre
    cases h2 with
    | left w' r' h' =>
      obtain ⟨heq, _⟩ := List.cons_prefix_cons.mp hpre
      exact absurd heq (by decide)
    | right w' l' h' =>
      obtain ⟨heq, hpre'⟩ := List.cons_prefix_cons.mp hpre
      obtain ⟨hp, hc⟩ := ih h' hpre'
      exact ⟨by rw [hp], hc⟩

/-! ## Decoding along paths -/

theorem decodeSym_path : ∀ {t : Tree} {p : List Char} {c : Char}, PathTo t p c →
    ∀ rest : List Char, decodeSym t (p ++ rest) = some (c, rest) := by
  intro t p c h
  induction h with
  | leaf c w => intro rest; simp [decodeSym]
  | left w r h ih =>
    intro rest
    simpa [decodeSym] using ih rest
  | right w l h ih =>
    intro rest
    simpa [decodeSym] using ih rest

theorem decodeF_step (fuel : Nat) (root : Tree) (b : Char) (bits : List Char)
    (c : Char) (rest : List Char) (h : decodeSym root (b :: bits) = some (c, rest)) :
    decodeF (fuel + 1) root (b :: bits) =
      (match decodeF fuel root rest with
       | .ok w => .ok (c :: w)
       | r => r) := by
  simp only [decodeF, h]

theorem decodeF_encode (ct : Char → Option (List Char)) (t : Tree) :
    ∀ (S : List Char) (fuel : Nat),
    (∀ c ∈ S, ∃ p, ct c = some p ∧ PathTo t p c ∧ p ≠ []) →
    (encode ct S).length < fuel →
    decodeF fuel t (encode ct S) = .ok S := by
  intro S
  induction S with
  | nil =>
    intro fuel _ _
    cases fuel with
    | zero => rfl
    | succ f => rfl
  | cons c S ih =>
    intro fuel hS hfuel
    obtain ⟨p, hp, hpath, hpne⟩ := hS c (List.mem_cons_self c S)
    have henc : encode ct (c :: S) = p ++ encode ct S := by simp [encode, hp]
    cases fuel with
    | zero =>
      rw [henc] at hfuel
      omega
    | succ f =>
      obtain ⟨b, p', rfl⟩ : ∃ b p', p = b :: p' := by
        cases p with
        | nil => exact absurd rfl hpne
        | cons b p' => exact ⟨b, p', rfl⟩
      have hsym : decodeSym t ((b :: p') ++ encode ct S) = some (c, encode ct S) :=
        decodeSym_path hpath _
      rw [henc]
      rw [show (b :: p') ++ encode ct S = b :: (p' ++ encode ct S) from rfl]
      rw [decodeF_step f t b _ c (encode ct S)
        (by rw [show b :: (p' ++ encode ct S) = (b :: p') ++ encode ct S from rfl]; exact hsym)]
      rw [ih f (fun d hd => hS d (List.mem_cons_of_mem c hd)) (by
        rw [henc] at hfuel
        simp only [List.length_append, List.length_cons] at hfuel
        omega)]


/-! ## The leaf forest and the histogram -/

theorem nodesGo_length (hist : List (Char × Nat)) : ∀ i : Nat,
    (nodesGo i hist).length = hist.length := by
  induction hist with
  | nil => intro i; rfl
  | cons p rest ih =>
    intro i
    obtain ⟨c, k⟩ := p
    simp [nodesGo, ih]

theorem nodesGo_chars (hist : List (Char × Nat)) : ∀ i : Nat,
    forestChars (nodesGo i hist) = hist.map Prod.fst := by
  induction hist with
  | nil => intro i; rfl
  | cons p rest ih =>
    intro i
    obtain ⟨c, k⟩ := p
    simp [nodesGo, forestChars, Tree.chars] at *
    exact ih (i + 1)

theorem nodesGo_sumW (hist : List (Char × Nat)) : ∀ i : Nat,
    sumW (nodesGo i hist) = (hist.map (fun p => (p.2 : Int))).sum := by
  induction hist with
  | nil => intro i; rfl
  | cons p rest ih =>
    intro i
    obtain ⟨c, k⟩ := p
    simp [nodesGo, sumW, Tree.w] at *
    exact ih (i + 1)

theorem histUpdate_keys (c d : Char) (h : List (Char × Nat)) :
    d ∈ (histUpdate c h).map Prod.fst ↔ d = c ∨ d ∈ h.map Prod.fst := by
  induction h with
  | nil => simp [histUpdate]
  | cons p rest ih =>
    obtain ⟨e, k⟩ := p
    by_cases h1 : c = e
    · subst h1
      simp [histUpdate]
    · by_cases h2 : c < e
      · simp [histUpdate, h1, h2]
      · simp [histUpdate, h1, h2, ih]
        tauto

theorem freq_mem (S : List Char) (c : Char) :
    c ∈ (freq S).map Prod.fst ↔ c ∈ S := by
  suffices h : ∀ acc : List (Char × Nat),
      (c ∈ (S.foldl (fun h c => histUpdate c h) acc).map Prod.fst ↔
        c ∈ acc.map Prod.fst ∨ c ∈ S) by
    simpa [freq] using h []
  induction S with
  | nil => intro acc; simp
  | cons d S ih =>
    intro acc
    simp only [List.foldl_cons]
    rw [ih (histUpdate d acc), histUpdate_keys]
    simp [List.mem_cons]
    tauto

/-! ## Divergence and bit normalisation of `decode` -/

theorem decodeF_leaf_hang (c0 : Char) (w0 : Int) (b : Char) (bits : List Char) :
    ∀ fuel : Nat, decodeF fuel (Tree.leaf c0 w0) (b :: bits) = .hang := by
  intro fuel
  induction fuel with
  | zero => rfl
  | succ f ih =>
    rw [decodeF_step f _ b bits c0 (b :: bits) (by simp [decodeSym]), ih]

/-- Normalisation of one input character the way `decode` reads it:
`'0'` stays `'0'`, every other character behaves as `'1'`. -/
def normBit (b : Char) : Char := if b = '0' then '0' else '1'

theorem decodeSym_norm (t : Tree) (bits : List Char) :
    decodeSym t (bits.map normBit) =
      (decodeSym t bits).map (fun pr => (pr.1, pr.2.map normBit)) := by
  induction bits generalizing t with
  | nil => cases t <;> rfl
  | cons b bs ih =>
    cases t with
    | leaf c w => simp [decodeSym]
    | node w l r =>
      have hcond : (normBit b = '0') ↔ (b = '0') := by
        by_cases hb : b = '0' <;> simp [normBit, hb]
      simp only [List.map_cons, decodeSym]
      rw [if_congr hcond rfl rfl]
      by_cases hb : b = '0' <;> simp [hb, ih]

theorem decodeF_norm (fuel : Nat) (t : Tree) : ∀ bits : List Char,
    decodeF fuel t (bits.map normBit) = decodeF fuel t bits := by
  induction fuel with
  | zero => intro bits; cases bits <;> rfl
  | succ f ih =>
    intro bits
    cases bits with
    | nil => rfl
    | cons b bs =>
      have hsym := decodeSym_norm t (b :: bs)
      cases h : decodeSym t (b :: bs) with
      | none =>
        rw [h] at hsym
        simp only [List.map_cons] at hsym ⊢
        simp [decodeF, h, hsym]
      | some pr =>
        obtain ⟨c, rest⟩ := pr
        rw [h] at hsym
        simp only [List.map_cons, Option.map_some'] at hsym ⊢
        rw [decodeF_step f t (normBit b) (bs.map normBit) c (rest.map normBit) hsym]
        rw [decodeF_step f t b bs c rest h]
        rw [ih rest]


/-! ## Claim theorems -/

/-- C1: evaluation of `huffman` at the leaf forest a:5, b:10, c:3
(allocated at addresses 0, 1, 2, as `nodes` would).  The first merge
combines the trees of weights 5 and 10 — not the two smallest weights 3
and 5 — because the scan compares raw `Node*` values (never the weights)
and compares against `min(ts[n-1], ts[n-1])`, the same element twice.  A
run that merged the two smallest weights first would create an internal
node of weight 3 + 5 = 8; the produced tree has no node of weight 8. -/
theorem c1_pointer_selection_eval :
    huffman [⟨0, Tree.leaf 'a' 5⟩, ⟨1, Tree.leaf 'b' 10⟩, ⟨2, Tree.leaf 'c' 3⟩] 3 =
      some (Tree.node 18 (Tree.node 15 (Tree.leaf 'a' 5) (Tree.leaf 'b' 10))
        (Tree.leaf 'c' 3)) ∧
    (8 : Int) ∉ (Tree.node 18 (Tree.node 15 (Tree.leaf 'a' 5) (Tree.leaf 'b' 10))
        (Tree.leaf 'c' 3)).weights := by
  decide

/-- C2 (amended): for every symbol sequence whose frequency histogram has
at least two entries (at least two distinct symbols), building the tree
from the histogram, encoding with the derived code table and decoding the
result with the same tree returns the original sequence. -/
theorem c2_roundtrip (S : List Char) (h2 : 2 ≤ (freq S).length) :
    ∃ t, huffman (nodes (freq S)) (freq S).length = some t ∧
      decode t (encode (codetable t) S) = .ok S := by
  have hlen : 2 ≤ (nodes (freq S)).length := by
    rw [nodes, nodesGo_length]
    exact h2
  obtain ⟨w, l, r, hh, hchars⟩ := huffman_internal (nodes (freq S)) ((freq S).length) hlen
  refine ⟨Tree.node w l r, hh, ?_⟩
  show decodeF _ (Tree.node w l r) (encode (codetable (Tree.node w l r)) S) = .ok S
  apply decodeF_encode
  · intro c hc
    have hmem : c ∈ (Tree.node w l r).chars := by
      rw [hchars c, nodes, nodesGo_chars]
      exact (freq_mem S c).mpr hc
    obtain ⟨p, hp, hpath⟩ := codetable_mem hmem
    exact ⟨p, hp, hpath, PathTo_node_ne_nil hpath⟩
  · omega

/-- C2 witness at the text "ab". -/
theorem c2_roundtrip_witness :
    2 ≤ (freq ['a', 'b']).length ∧
    (∃ t, huffman (nodes (freq ['a', 'b'])) (freq ['a', 'b']).length = some t ∧
      decode t (encode (codetable t) ['a', 'b']) = .ok ['a', 'b']) :=
  ⟨by decide, c2_roundtrip ['a', 'b'] (by decide)⟩

/-- C2 counterexample: for the single-symbol text "a" the round trip
returns the empty sequence, not the original text: the single leaf is
assigned the empty code, so the encoded string is empty. -/
theorem c2_roundtrip_counterexample :
    huffman (nodes (freq ['a'])) 1 = some (Tree.leaf 'a' 1) ∧
    encode (codetable (Tree.leaf 'a' 1)) ['a'] = [] ∧
    decode (Tree.leaf 'a' 1) (encode (codetable (Tree.leaf 'a' 1)) ['a']) =
      DecodeResult.ok [] ∧
    DecodeResult.ok [] ≠ DecodeResult.ok ['a'] := by
  decide

/-- C3 (amended): `encode` never fails: an input symbol with no entry in
the code table contributes the default-constructed empty bit-string
(`map::operator[]` on an absent key) and is silently skipped. -/
theorem c3_encode_skips_unknown (codes : Char → Option (List Char))
    (w₁ w₂ : List Char) (c : Char) (h : codes c = none) :
    encode codes (w₁ ++ c :: w₂) = encode codes (w₁ ++ w₂) := by
  induction w₁ with
  | nil => simp [encode, h]
  | cons d w₁ ih =>
    simp only [List.cons_append, encode]
    exact congrArg (fun bs => (codes d).getD [] ++ bs) ih

/-- C3 witness: skipping the unknown symbol 'c' in "acb" encoded with the
table of the tree of "ab". -/
theorem c3_encode_skips_unknown_witness :
    codetable (Tree.node 2 (Tree.leaf 'b' 1) (Tree.leaf 'a' 1)) 'c' = none ∧
    encode (codetable (Tree.node 2 (Tree.leaf 'b' 1) (Tree.leaf 'a' 1)))
        (['a'] ++ 'c' :: ['b']) =
      encode (codetable (Tree.node 2 (Tree.leaf 'b' 1) (Tree.leaf 'a' 1)))
        (['a'] ++ ['b']) :=
  ⟨by decide, c3_encode_skips_unknown _ ['a'] ['b'] 'c' (by decide)⟩

/-- C3 counterexample: encoding "abc" with the code table built from the
tree of "ab" — where 'c' has no entry — produces the bit-string "10"
rather than failing: `encode` has no failure channel at all. -/
theorem c3_encode_unknown_counterexample :
    huffman (nodes (freq ['a', 'b'])) 2 =
      some (Tree.node 2 (Tree.leaf 'b' 1) (Tree.leaf 'a' 1)) ∧
    codetable (Tree.node 2 (Tree.leaf 'b' 1) (Tree.leaf 'a' 1)) 'c' = none ∧
    encode (codetable (Tree.node 2 (Tree.leaf 'b' 1) (Tree.leaf 'a' 1)))
      ['a', 'b', 'c'] = ['1', '0'] := by
  decide

/-- C4 (amended): when the remaining input ends partway through a
root-to-leaf traversal, `decode` runs past the end of the input string
(undefined behaviour: it reads the terminator as a non-'0' character and
then reads beyond the buffer), modelled as the `oob` outcome; it does not
signal a `TruncatedInput` error — no error channel exists. -/
theorem c4_truncated_oob (fuel : Nat) (t : Tree) (b : Char) (bits : List Char)
    (h : decodeSym t (b :: bits) = none) :
    decodeF (fuel + 1) t (b :: bits) = DecodeResult.oob := by
  simp [decodeF, h]

/-- C4 witness: a depth-2 tree with the truncated input "0". -/
theorem c4_truncated_oob_witness :
    decodeSym (Tree.node 3 (Tree.node 2 (Tree.leaf 'a' 1) (Tree.leaf 'b' 1))
      (Tree.leaf 'c' 1)) ['0'] = none ∧
    decodeF 1 (Tree.node 3 (Tree.node 2 (Tree.leaf 'a' 1) (Tree.leaf 'b' 1))
      (Tree.leaf 'c' 1)) ['0'] = DecodeResult.oob :=
  ⟨by decide, c4_truncated_oob 0 _ '0' [] (by decide)⟩

/-- C4 counterexample: decoding the truncated bit-string "0" against a
depth-2 tree ends in the out-of-bounds outcome, not in a `TruncatedInput`
error value and not in a symbol sequence. -/
theorem c4_truncated_counterexample :
    decode (Tree.node 3 (Tree.node 2 (Tree.leaf 'a' 1) (Tree.leaf 'b' 1))
      (Tree.leaf 'c' 1)) ['0'] = DecodeResult.oob := by
  decide

/-- C5 (amended): `decode` treats every character other than '0' as a
right branch, exactly as it treats '1': decoding is invariant under
replacing every character of the input by its normalisation
(`'0'` stays, everything else becomes `'1'`).  No `MalformedInput`
detection exists. -/
theorem c5_nonbinary_as_one (t : Tree) (bits : List Char) :
    decode t (bits.map normBit) = decode t bits := by
  unfold decode
  rw [List.length_map]
  exact decodeF_norm _ _ _

/-- C5 counterexample: decoding "x" with a two-leaf tree returns the
symbol sequence "b" — 'x' is taken as a right branch like '1' — instead
of failing with `MalformedInput`. -/
theorem c5_malformed_counterexample :
    decode (Tree.node 2 (Tree.leaf 'a' 1) (Tree.leaf 'b' 1)) ['x'] =
      DecodeResult.ok ['b'] := by
  decide

/-- C6 (amended): on every non-empty forest `huffman` returns a tree:
the loop always terminates with exactly one tree and `front()` is
well-defined, so construction never fails. -/
theorem c6_nonempty_never_fails (ts : List NodeRef) (next : Nat) (h : ts ≠ []) :
    ∃ t, huffman ts next = some t :=
  huffman_nonempty_some ts next h

/-- C6 witness: the singleton forest x:7. -/
theorem c6_nonempty_never_fails_witness :
    ∃ t, huffman [⟨0, Tree.leaf 'x' 7⟩] 1 = some t :=
  c6_nonempty_never_fails [⟨0, Tree.leaf 'x' 7⟩] 1 (by decide)

/-- C6 counterexample: on the empty forest `huffman` executes
`vector::front()` of an empty vector — undefined behaviour, modelled as
`none` — instead of signalling an `EmptyInput` error (no such error
value exists anywhere in the code). -/
theorem c6_empty_counterexample : huffman [] 0 = none := rfl

/-- C7: code tables are prefix-free: for any tree and any two distinct
symbols with entries in its code table, neither code string is a prefix
of the other (each entry is a root-to-leaf path, and distinct leaves of
a full binary tree have prefix-incomparable paths). -/
theorem c7_prefix_free (t : Tree) (c₁ c₂ : Char) (p₁ p₂ : List Char)
    (hne : c₁ ≠ c₂) (h₁ : codetable t c₁ = some p₁)
    (h₂ : codetable t c₂ = some p₂) :
    ¬ p₁ <+: p₂ ∧ ¬ p₂ <+: p₁ := by
  have path₁ := codetable_some h₁
  have path₂ := codetable_some h₂
  constructor
  · intro hpre
    exact hne (PathTo_prefix_eq path₁ path₂ hpre).2
  · intro hpre
    exact hne ((PathTo_prefix_eq path₂ path₁ hpre).2.symm)

/-- C7 witness: the two codes of the tree of "ab". -/
theorem c7_prefix_free_witness :
    codetable (Tree.node 2 (Tree.leaf 'a' 1) (Tree.leaf 'b' 1)) 'a' = some ['0'] ∧
    codetable (Tree.node 2 (Tree.leaf 'a' 1) (Tree.leaf 'b' 1)) 'b' = some ['1'] ∧
    (¬ ['0'] <+: ['1'] ∧ ¬ ['1'] <+: ['0']) :=
  ⟨by decide, by decide,
    c7_prefix_free (Tree.node 2 (Tree.leaf 'a' 1) (Tree.leaf 'b' 1)) 'a' 'b'
      ['0'] ['1'] (by decide) (by decide) (by decide)⟩

/-- C8: after every number `k` of construction steps applied to the leaf
forest of a frequency histogram, the sum of the root weights of all
trees in the forest equals the sum of the input frequencies: each merge
replaces two trees by one carrying the sum of their weights. -/
theorem c8_weight_sum_invariant (hist : List (Char × Nat)) (next : Nat) (k : Nat) :
    sumW ((hstepF^[k]) ((nodes hist).reverse, next)).1 =
      (hist.map (fun p => (p.2 : Int))).sum := by
  rw [iterate_sumW]
  show sumW (nodes hist).reverse = _
  rw [sumW_perm (List.reverse_perm (nodes hist)), nodes, nodesGo_sumW]

/-- C9: `decode` does not terminate on a single-leaf tree with non-empty
input: the traversal starts (and stays) at a leaf, consumes no input
character, and the outer loop re-reads the same input forever — the run
is out of fuel at every fuel. -/
theorem c9_decode_single_leaf_diverges (fuel : Nat) :
    decodeF fuel (Tree.leaf 'a' 3) ['0'] = DecodeResult.hang :=
  decodeF_leaf_hang 'a' 3 '0' [] fuel

/-- C10: on a single-leaf forest `huffman` returns that leaf unchanged
(the loop body never runs), and `codetable` maps the leaf symbol to the
empty bit-string. -/
theorem c10_single_leaf (a : Nat) (c : Char) (w : Int) (next : Nat) :
    huffman [⟨a, Tree.leaf c w⟩] next = some (Tree.leaf c w) ∧
    codetable (Tree.leaf c w) c = some [] := by
  constructor
  · rfl
  · simp [codetable, codetab]


end Huffman
